import Mathlib

/-!
Verification of the gradient-based Gaussian / Gaussian-mixture estimation core
(`GMM with PyTorch.ipynb`) against its specification.

The numeric code is embedded over the exact reals: tensors of shape `(N, F)`
become functions `Fin N → Fin F → ℝ`, square matrices use Mathlib's `Matrix`,
and the PyTorch reductions (`sum`, `mean`, `max`) become `Finset` operations.
Mixture-component counts are written `K + 1` so that the component axis is
provably nonempty, exactly as `torch.max` over that axis requires.
-/

open Matrix

namespace GMM

/-- Cholesky-factor parametrization from the source:
`H = torch.diag(torch.exp(d)) + torch.tril(W, -1)`.
Entry `(i, j)` is `exp (d i)` on the diagonal, `W i j` strictly below it
(`j < i`), and `0` above it. -/
noncomputable def H (F : ℕ) (d : Fin F → ℝ) (W : Matrix (Fin F) (Fin F) ℝ) :
    Matrix (Fin F) (Fin F) ℝ :=
  Matrix.of fun i j => if i = j then Real.exp (d i) else if j < i then W i j else 0

/-- Precision-matrix parametrization from the source: `P = H @ H.transpose(1, 0)`. -/
noncomputable def P (F : ℕ) (d : Fin F → ℝ) (W : Matrix (Fin F) (Fin F) ℝ) :
    Matrix (Fin F) (Fin F) ℝ :=
  H F d W * (H F d W)ᵀ

/-- Per-sample Gaussian log-likelihood from the source (`loglik`):
`diff = X - mu`, `quad_form = torch.sum(diff * (diff @ P), dim=1)`, and the
returned vector is `-0.5 * log(2 * pi) + torch.sum(d) - 0.5 * quad_form`.
Note the source multiplies `log(2 * pi)` by `-0.5` only, with no factor of
the feature count. -/
noncomputable def loglik (N F : ℕ) (X : Fin N → Fin F → ℝ) (mu : Fin F → ℝ)
    (d : Fin F → ℝ) (W : Matrix (Fin F) (Fin F) ℝ) : Fin N → ℝ :=
  fun s =>
    -0.5 * Real.log (2 * Real.pi) + (∑ i, d i)
      - 0.5 * ∑ i, (X s i - mu i) * ∑ k, (X s k - mu k) * P F d W k i

/-- Negative log-likelihood loss from the source (`nll`):
`-torch.mean(loglik(X, mu, d, W))`. -/
noncomputable def nll (N F : ℕ) (X : Fin N → Fin F → ℝ) (mu : Fin F → ℝ)
    (d : Fin F → ℝ) (W : Matrix (Fin F) (Fin F) ℝ) : ℝ :=
  -((∑ s, loglik N F X mu d W s) / (N : ℝ))

/-- Per-column maximum of a `(K+1) × N` score matrix:
`max_score, _ = torch.max(data, 0)`. -/
noncomputable def colmax (K N : ℕ) (data : Fin (K + 1) → Fin N → ℝ) (j : Fin N) : ℝ :=
  Finset.univ.sup' Finset.univ_nonempty fun k => data k j

/-- Numerically stable log-sum-exp over the component axis (`dim=0` branch of
the source `logsumexp`): shift each column by its maximum, exponentiate, sum,
take the log, and add the maximum back. -/
noncomputable def logsumexp (K N : ℕ) (data : Fin (K + 1) → Fin N → ℝ) : Fin N → ℝ :=
  fun j => colmax K N data j + Real.log (∑ k, Real.exp (data k j - colmax K N data j))

/-- Per-row maximum of a `K × (N+1)` matrix: `torch.max(data, 1)`. -/
noncomputable def rowmax (K N : ℕ) (data : Fin K → Fin (N + 1) → ℝ) (k : Fin K) : ℝ :=
  Finset.univ.sup' Finset.univ_nonempty fun j => data k j

/-- `dim=1` branch of the source `logsumexp`: reduce each row after shifting by
its maximum (`max_score.view(-1, 1)` broadcast). -/
noncomputable def logsumexpRow (K N : ℕ) (data : Fin K → Fin (N + 1) → ℝ) : Fin K → ℝ :=
  fun k => rowmax K N data k + Real.log (∑ j, Real.exp (data k j - rowmax K N data k))

/-- Python exception kinds relevant to the `logsumexp` axis dispatch. -/
inductive PyExc where
  | typeError : String → PyExc
  | notImplementedError : String → PyExc

/-- The source `logsumexp(data, dim)` with its axis dispatch. The branches
`dim == 0` and `dim == 1` compute the stable reduction along that axis. The
final branch executes `raise NotImplemented("logsumexp with dim=%d is not
supported" % dim)`; in Python, `NotImplemented` is a plain constant, not an
exception class, so calling it raises a `TypeError` whose message does not
contain the formatted axis text. -/
noncomputable def logsumexpD (K N : ℕ) (data : Fin (K + 1) → Fin (N + 1) → ℝ)
    (dim : ℕ) : Except PyExc ((Fin (N + 1) → ℝ) ⊕ (Fin (K + 1) → ℝ)) :=
  if dim = 0 then Except.ok (Sum.inl (logsumexp K (N + 1) data))
  else if dim = 1 then Except.ok (Sum.inr (logsumexpRow (K + 1) N data))
  else Except.error (PyExc.typeError "NotImplementedType object is not callable")

/-- Maximum entry of a logit vector, used by the stable log-softmax. -/
noncomputable def vmax (K : ℕ) (w : Fin (K + 1) → ℝ) : ℝ :=
  Finset.univ.sup' Finset.univ_nonempty w

/-- `torch.nn.LogSoftmax()` applied to the `(1, K)` logit row (reduction over
the component axis), in its numerically stable shift-by-max form:
`log_softmax(w)_k = w_k - (max w + log Σ_l exp (w_l - max w))`. -/
noncomputable def logsoftmax (K : ℕ) (w : Fin (K + 1) → ℝ) : Fin (K + 1) → ℝ :=
  fun k => w k - (vmax K w + Real.log (∑ l, Real.exp (w l - vmax K w)))

/-- Mixture negative log-likelihood from the source (`mixture_nll`): the
per-component `loglik` rows are stacked into a `(K+1) × N` matrix, the
log-softmax of the weight logits is broadcast-added to each row, the stable
`logsumexp` reduces the component axis, and the result is
`torch.mean(-logsumexp(...))`. -/
noncomputable def mixture_nll (K N F : ℕ) (X : Fin N → Fin F → ℝ)
    (weights : Fin (K + 1) → ℝ) (means : Fin (K + 1) → Fin F → ℝ)
    (prec_diags : Fin (K + 1) → Fin F → ℝ)
    (prec_off_diags : Fin (K + 1) → Matrix (Fin F) (Fin F) ℝ) : ℝ :=
  (∑ s, -(logsumexp K N
      (fun k j =>
        loglik N F X (means k) (prec_diags k) (prec_off_diags k) j
          + logsoftmax K weights k) s)) / (N : ℝ)

/-- The single-Gaussian training loop (`for t in range(2000)`): every
iteration evaluates the loss, prints at the reporting cadence, and performs an
optimizer step; there is no data-dependent exit, so the control flow is a
plain countdown. The parameter updates themselves are abstracted into the
observed loss stream `loss`, which the control flow never reads. -/
def singleLoopAux (loss : ℕ → ℝ) (t fuel : ℕ) : ℕ :=
  match fuel with
  | 0 => t
  | f + 1 => singleLoopAux loss (t + 1) f

/-- Number of optimizer iterations performed by the single-Gaussian loop. -/
def singleLoopIters (loss : ℕ → ℝ) : ℕ :=
  singleLoopAux loss 0 2000

/-- The mixture training loop body: starting from `best_loss = np.inf`, each
iteration `t` evaluates the loss; if it is strictly below the best seen so
far, the best is updated and an optimizer step runs, otherwise the loop
breaks at once. Returns the number of optimizer steps performed (the index at
which the break occurred, or the cap when the loop ran out). The loss at
iteration `t` is abstracted as a stream `loss : ℕ → ℝ`; `np.inf` is the top
element of `EReal`. -/
noncomputable def mixtureLoopAux (loss : ℕ → ℝ) : ℕ → ℕ → EReal → ℕ
  | t, 0, _ => t
  | t, fuel + 1, best =>
      if (loss t : EReal) < best then mixtureLoopAux loss (t + 1) fuel (loss t) else t

/-- Number of optimizer iterations performed by the mixture loop
(`for t in range(cap)` with the `best_loss` break; the source uses
`cap = 5000`). -/
noncomputable def mixtureLoopIters (loss : ℕ → ℝ) (cap : ℕ) : ℕ :=
  mixtureLoopAux loss 0 cap ⊤

/-- A concrete loss stream that improves once and then stalls:
`0, -1, 0, 0, ...`. -/
noncomputable def lossW : ℕ → ℝ :=
  fun n => if n < 2 then -(n : ℝ) else 0

/-! ### Basic facts about the parametrization -/

/-- The Cholesky factor `H` has determinant `exp (∑ d i)`: it is lower
triangular with diagonal `exp (d i)`. -/
lemma H_det (F : ℕ) (d : Fin F → ℝ) (W : Matrix (Fin F) (Fin F) ℝ) :
    (H F d W).det = Real.exp (∑ i, d i) := by
  have htri : (H F d W).BlockTriangular OrderDual.toDual := by
    intro i j hij
    have hij' : i < j := hij
    simp [H, ne_of_lt hij', lt_asymm hij']
  rw [Matrix.det_of_lowerTriangular _ htri, Real.exp_sum]
  exact Finset.prod_congr rfl fun i _ => by simp [H]

/-- `Hᵀ` acts injectively on vectors: its determinant `exp (∑ d i)` is a unit. -/
lemma Ht_mulVec_ne_zero (F : ℕ) (d : Fin F → ℝ) (W : Matrix (Fin F) (Fin F) ℝ)
    {v : Fin F → ℝ} (hv : v ≠ 0) : (H F d W)ᵀ *ᵥ v ≠ 0 := by
  intro h0
  apply hv
  have hdet : IsUnit ((H F d W)ᵀ).det := by
    rw [Matrix.det_transpose, H_det]
    exact isUnit_iff_ne_zero.mpr (Real.exp_pos _).ne'
  calc v = 1 *ᵥ v := (Matrix.one_mulVec v).symm
    _ = (((H F d W)ᵀ)⁻¹ * (H F d W)ᵀ) *ᵥ v := by rw [Matrix.nonsing_inv_mul _ hdet]
    _ = ((H F d W)ᵀ)⁻¹ *ᵥ ((H F d W)ᵀ *ᵥ v) := (Matrix.mulVec_mulVec v _ _).symm
    _ = 0 := by rw [h0, Matrix.mulVec_zero]

/-- The quadratic form of `P = H * Hᵀ` is the squared norm of `Hᵀ *ᵥ v`. -/
lemma quadForm_eq (F : ℕ) (d : Fin F → ℝ) (W : Matrix (Fin F) (Fin F) ℝ)
    (v : Fin F → ℝ) :
    v ⬝ᵥ (P F d W) *ᵥ v = ((H F d W)ᵀ *ᵥ v) ⬝ᵥ ((H F d W)ᵀ *ᵥ v) := by
  unfold P
  rw [← Matrix.mulVec_mulVec, Matrix.dotProduct_mulVec, ← Matrix.mulVec_transpose]

/-- C2: for every real `d` and `W`, the parametrized precision matrix
`P = H * Hᵀ` is exactly symmetric and positive-definite: its quadratic form is
strictly positive at every nonzero vector. The parametrization never produces
an invalid matrix. -/
theorem precision_symm_posdef (F : ℕ) (d : Fin F → ℝ) (W : Matrix (Fin F) (Fin F) ℝ)
    (v : Fin F → ℝ) (hv : v ≠ 0) :
    (P F d W)ᵀ = P F d W ∧ 0 < v ⬝ᵥ (P F d W) *ᵥ v := by
  constructor
  · unfold P
    rw [Matrix.transpose_mul, Matrix.transpose_transpose]
  · rw [quadForm_eq]
    have hw : (H F d W)ᵀ *ᵥ v ≠ 0 := Ht_mulVec_ne_zero F d W hv
    have h1 : 0 ≤ ((H F d W)ᵀ *ᵥ v) ⬝ᵥ ((H F d W)ᵀ *ᵥ v) :=
      Finset.sum_nonneg fun i _ => mul_self_nonneg _
    have h2 : ((H F d W)ᵀ *ᵥ v) ⬝ᵥ ((H F d W)ᵀ *ᵥ v) ≠ 0 :=
      fun h => hw (Matrix.dotProduct_self_eq_zero.mp h)
    exact lt_of_le_of_ne h1 (Ne.symm h2)

/-- Witness for C2 at `F = 2`, `d = 0`, `W = 0`, `v = ![1, 0]`. -/
theorem precision_symm_posdef_witness :
    (![1, 0] : Fin 2 → ℝ) ≠ 0 ∧
      ((P 2 0 0)ᵀ = P 2 0 0 ∧ 0 < (![1, 0] : Fin 2 → ℝ) ⬝ᵥ (P 2 0 0) *ᵥ ![1, 0]) := by
  have hv : (![1, 0] : Fin 2 → ℝ) ≠ 0 := by
    intro h
    have h0 := congrFun h 0
    norm_num at h0
  exact ⟨hv, precision_symm_posdef 2 0 0 ![1, 0] hv⟩

/-- C4: the determinant of the parametrized precision matrix is
`∏ i, exp (d i) ^ 2 = exp (2 * ∑ d i)`, and `∑ d i` equals both `log det H` and
`0.5 * log det P`, so the log-determinant is available from `d` alone. -/
theorem det_from_d (F : ℕ) (d : Fin F → ℝ) (W : Matrix (Fin F) (Fin F) ℝ) :
    (P F d W).det = ∏ i, Real.exp (d i) ^ 2 ∧
      (P F d W).det = Real.exp (2 * ∑ i, d i) ∧
      (∑ i, d i) = Real.log (H F d W).det ∧
      (∑ i, d i) = 0.5 * Real.log (P F d W).det := by
  have hP : (P F d W).det = Real.exp (2 * ∑ i, d i) := by
    unfold P
    rw [Matrix.det_mul, Matrix.det_transpose, H_det, ← Real.exp_add]
    ring_nf
  refine ⟨?_, hP, ?_, ?_⟩
  · rw [hP, Finset.prod_pow, ← Real.exp_sum, ← Real.exp_nat_mul]
    norm_num [mul_comm]
  · rw [H_det, Real.log_exp]
  · rw [hP, Real.log_exp]
    ring

/-! ### Log-sum-exp and log-softmax facts -/

/-- A finite sum of exponentials over a nonempty index type is positive. -/
lemma sum_exp_pos {α : Type} [Fintype α] [Nonempty α] (f : α → ℝ) :
    0 < ∑ a, Real.exp (f a) :=
  Finset.sum_pos (fun _ _ => Real.exp_pos _) Finset.univ_nonempty

/-- Shift-by-`m` identity: `m + log Σ exp (f - m) = log Σ exp f`. -/
lemma shiftedLse {α : Type} [Fintype α] [Nonempty α] (m : ℝ) (f : α → ℝ) :
    m + Real.log (∑ a, Real.exp (f a - m)) = Real.log (∑ a, Real.exp (f a)) := by
  have h1 : ∑ a, Real.exp (f a - m) = (∑ a, Real.exp (f a)) / Real.exp m := by
    rw [Finset.sum_div]
    exact Finset.sum_congr rfl fun a _ => Real.exp_sub (f a) m
  rw [h1, Real.log_div (sum_exp_pos f).ne' (Real.exp_ne_zero m), Real.log_exp]
  ring

/-- The stable `logsumexp` equals the naive unshifted log-sum-exp. -/
lemma logsumexp_eq (K N : ℕ) (data : Fin (K + 1) → Fin N → ℝ) (j : Fin N) :
    logsumexp K N data j = Real.log (∑ k, Real.exp (data k j)) :=
  shiftedLse (colmax K N data j) fun k => data k j

/-- The stable `logsoftmax` equals the naive `w k - log Σ exp w`. -/
lemma logsoftmax_eq (K : ℕ) (w : Fin (K + 1) → ℝ) (k : Fin (K + 1)) :
    logsoftmax K w k = w k - Real.log (∑ l, Real.exp (w l)) := by
  unfold logsoftmax
  rw [shiftedLse (vmax K w) w]

/-- C5: on a `(K+1) × N` score matrix, the component-axis `logsumexp` returns
per column the maximum-shifted reduction `m_j + log Σ_k exp (scores k j - m_j)`,
and this equals the naive `log Σ_k exp (scores k j)` exactly. -/
theorem logsumexp_shift_eq_naive (K N : ℕ) (data : Fin (K + 1) → Fin N → ℝ)
    (j : Fin N) :
    logsumexp K N data j
        = colmax K N data j + Real.log (∑ k, Real.exp (data k j - colmax K N data j)) ∧
      logsumexp K N data j = Real.log (∑ k, Real.exp (data k j)) :=
  ⟨rfl, logsumexp_eq K N data j⟩

/-- C3: `mixture_nll` is the negated mean over samples of the log-sum-exp over
components of (log-softmax weight + per-sample component log-likelihood),
with the log-softmax in its naive form `ω_k - log Σ_l exp ω_l`. -/
theorem mixture_nll_formula (K N F : ℕ) (X : Fin N → Fin F → ℝ)
    (weights : Fin (K + 1) → ℝ) (means : Fin (K + 1) → Fin F → ℝ)
    (prec_diags : Fin (K + 1) → Fin F → ℝ)
    (prec_off_diags : Fin (K + 1) → Matrix (Fin F) (Fin F) ℝ) :
    mixture_nll K N F X weights means prec_diags prec_off_diags =
      -((∑ j, Real.log (∑ k, Real.exp
          ((weights k - Real.log (∑ l, Real.exp (weights l)))
            + loglik N F X (means k) (prec_diags k) (prec_off_diags k) j)))
        / (N : ℝ)) := by
  have hs : ∀ j : Fin N,
      logsumexp K N
        (fun k j' =>
          loglik N F X (means k) (prec_diags k) (prec_off_diags k) j'
            + logsoftmax K weights k) j
        = Real.log (∑ k, Real.exp
            ((weights k - Real.log (∑ l, Real.exp (weights l)))
              + loglik N F X (means k) (prec_diags k) (prec_off_diags k) j)) := by
    intro j
    rw [logsumexp_eq]
    congr 1
    refine Finset.sum_congr rfl fun k _ => ?_
    rw [logsoftmax_eq]
    ring_nf
  unfold mixture_nll
  simp only [hs]
  rw [Finset.sum_neg_distrib, neg_div]

/-- C9: adding a common constant `c` to every mixture weight logit leaves the
log-softmax of the logits, and hence `mixture_nll`, unchanged. -/
theorem mixture_nll_logit_shift_invariant (K N F : ℕ) (X : Fin N → Fin F → ℝ)
    (weights : Fin (K + 1) → ℝ) (c : ℝ) (means : Fin (K + 1) → Fin F → ℝ)
    (prec_diags : Fin (K + 1) → Fin F → ℝ)
    (prec_off_diags : Fin (K + 1) → Matrix (Fin F) (Fin F) ℝ) :
    (∀ k, logsoftmax K (fun l => weights l + c) k = logsoftmax K weights k) ∧
      mixture_nll K N F X (fun l => weights l + c) means prec_diags prec_off_diags
        = mixture_nll K N F X weights means prec_diags prec_off_diags := by
  have hsum : (∑ l, Real.exp (weights l + c)) = (∑ l, Real.exp (weights l)) * Real.exp c := by
    rw [Finset.sum_mul]
    exact Finset.sum_congr rfl fun l _ => Real.exp_add _ _
  have hlog : Real.log (∑ l, Real.exp (weights l + c))
      = Real.log (∑ l, Real.exp (weights l)) + c := by
    rw [hsum, Real.log_mul (sum_exp_pos weights).ne' (Real.exp_ne_zero c), Real.log_exp]
  have h1 : ∀ k, logsoftmax K (fun l => weights l + c) k = logsoftmax K weights k := by
    intro k
    simp only [logsoftmax_eq]
    rw [hlog]
    ring
  refine ⟨h1, ?_⟩
  unfold mixture_nll
  simp only [h1]

/-- C10: a `1 × N` score matrix is returned unchanged by the component-axis
`logsumexp`, and a one-component mixture loss coincides with the
single-Gaussian loss `nll` for every value of the single weight logit. -/
theorem one_component_reduces_to_single (N F : ℕ) (X : Fin N → Fin F → ℝ)
    (mu : Fin F → ℝ) (d : Fin F → ℝ) (W : Matrix (Fin F) (Fin F) ℝ)
    (omega : Fin 1 → ℝ) (data : Fin 1 → Fin N → ℝ) (j : Fin N) :
    logsumexp 0 N data j = data 0 j ∧
      mixture_nll 0 N F X omega (fun _ => mu) (fun _ => d) (fun _ => W)
        = nll N F X mu d W := by
  constructor
  · rw [logsumexp_eq, Fin.sum_univ_one, Real.log_exp]
  · have hlsm : logsoftmax 0 omega 0 = 0 := by
      rw [logsoftmax_eq, Fin.sum_univ_one, Real.log_exp]
      ring
    have hlse : ∀ s : Fin N,
        logsumexp 0 N (fun k j' => loglik N F X mu d W j' + logsoftmax 0 omega k) s
          = loglik N F X mu d W s := by
      intro s
      rw [logsumexp_eq, Fin.sum_univ_one, hlsm, add_zero, Real.log_exp]
    unfold mixture_nll nll
    simp only [hlse]
    rw [Finset.sum_neg_distrib, neg_div]

/-! ### The missing feature-count factor in `loglik` -/

/-- C1 (code bug): at `F = 2`, `X = 0`, `mu = 0`, `d = 0`, `W = 0`, the source
`loglik` returns `-0.5 * log (2π)`, not the claimed
`-0.5 * F * log (2π) = -0.5 * 2 * log (2π)`: the source multiplies
`log (2π)` by `-0.5` only, omitting the feature-count factor. -/
theorem loglik_missing_feature_factor :
    loglik 1 2 (fun _ _ => 0) 0 0 0 0 = -0.5 * Real.log (2 * Real.pi) ∧
      loglik 1 2 (fun _ _ => 0) 0 0 0 0 ≠ -0.5 * 2 * Real.log (2 * Real.pi) := by
  have hval : loglik 1 2 (fun _ _ => 0) 0 0 0 0 = -0.5 * Real.log (2 * Real.pi) := by
    simp [loglik]
  have hL : 0 < Real.log (2 * Real.pi) :=
    Real.log_pos (by nlinarith [Real.pi_gt_three])
  refine ⟨hval, ?_⟩
  rw [hval]
  intro hc
  nlinarith [hL, hc]

/-! ### Only the strictly-lower triangle of `W` matters -/

/-- C8: two off-diagonal matrices agreeing on all strictly-lower-triangular
entries produce identical `H`, `P`, `loglik`, and `nll`: diagonal and
upper-triangular entries of `W` have no influence. -/
theorem strict_lower_only (F : ℕ) (d : Fin F → ℝ)
    (W W' : Matrix (Fin F) (Fin F) ℝ)
    (h : ∀ i j : Fin F, j < i → W i j = W' i j) :
    H F d W = H F d W' ∧ P F d W = P F d W' ∧
      (∀ (N : ℕ) (X : Fin N → Fin F → ℝ) (mu : Fin F → ℝ),
        loglik N F X mu d W = loglik N F X mu d W') ∧
      (∀ (N : ℕ) (X : Fin N → Fin F → ℝ) (mu : Fin F → ℝ),
        nll N F X mu d W = nll N F X mu d W') := by
  have hH : H F d W = H F d W' := by
    ext i j
    by_cases hij : i = j
    · simp [H, hij]
    · by_cases hlt : j < i
      · simp [H, hij, hlt, h i j hlt]
      · simp [H, hij, hlt]
  have hP : P F d W = P F d W' := by
    unfold P
    rw [hH]
  refine ⟨hH, hP, ?_, ?_⟩
  · intro N X mu
    funext s
    simp only [loglik, hP]
  · intro N X mu
    simp only [nll, loglik, hP]

/-- Witness for C8 at `F = 1`, `W = !![5]`, `W' = !![7]` (they differ on the
diagonal but trivially agree on the empty strictly-lower triangle). -/
theorem strict_lower_only_witness :
    (∀ i j : Fin 1, j < i →
        (!![5] : Matrix (Fin 1) (Fin 1) ℝ) i j = (!![7] : Matrix (Fin 1) (Fin 1) ℝ) i j) ∧
      (H 1 0 !![5] = H 1 0 !![7] ∧ P 1 0 !![5] = P 1 0 !![7] ∧
        (∀ (N : ℕ) (X : Fin N → Fin 1 → ℝ) (mu : Fin 1 → ℝ),
          loglik N 1 X mu 0 !![5] = loglik N 1 X mu 0 !![7]) ∧
        (∀ (N : ℕ) (X : Fin N → Fin 1 → ℝ) (mu : Fin 1 → ℝ),
          nll N 1 X mu 0 !![5] = nll N 1 X mu 0 !![7])) := by
  have hvac : ∀ i j : Fin 1, j < i →
      (!![5] : Matrix (Fin 1) (Fin 1) ℝ) i j = (!![7] : Matrix (Fin 1) (Fin 1) ℝ) i j := by
    intro i j hij
    have hji : j = i := Subsingleton.elim j i
    rw [hji] at hij
    exact absurd hij (lt_irrefl i)
  exact ⟨hvac, strict_lower_only 1 0 !![5] !![7] hvac⟩

/-! ### Axis dispatch of `logsumexp` -/

/-- C6 (code bug): for any axis outside `{0, 1}`, the source executes
`raise NotImplemented(...)`, which in Python raises a `TypeError` complaining
that `NotImplementedType` is not callable — an error that does not identify
the unsupported axis. -/
theorem logsumexp_bad_axis (K N : ℕ) (data : Fin (K + 1) → Fin (N + 1) → ℝ)
    (dim : ℕ) (h0 : dim ≠ 0) (h1 : dim ≠ 1) :
    logsumexpD K N data dim
      = Except.error (PyExc.typeError "NotImplementedType object is not callable") := by
  unfold logsumexpD
  rw [if_neg h0, if_neg h1]

/-- Witness for C6 at `dim = 2` on a `1 × 1` zero matrix. -/
theorem logsumexp_bad_axis_witness :
    (2 : ℕ) ≠ 0 ∧ (2 : ℕ) ≠ 1 ∧
      logsumexpD 0 0 (fun _ _ => 0) 2
        = Except.error (PyExc.typeError "NotImplementedType object is not callable") :=
  ⟨by decide, by decide, logsumexp_bad_axis 0 0 (fun _ _ => 0) 2 (by decide) (by decide)⟩

/-! ### Optimization loop stopping policies -/

/-- The single-Gaussian loop counts down its whole fuel. -/
lemma singleLoopAux_eq (loss : ℕ → ℝ) :
    ∀ fuel t : ℕ, singleLoopAux loss t fuel = t + fuel := by
  intro fuel
  induction fuel with
  | zero => intro t; rfl
  | succ f ih =>
      intro t
      show singleLoopAux loss (t + 1) f = t + (f + 1)
      rw [ih (t + 1)]
      omega

/-- Unfolding equation of the mixture loop at positive fuel. -/
lemma mixAux_succ (loss : ℕ → ℝ) (t fuel : ℕ) (best : EReal) :
    mixtureLoopAux loss t (fuel + 1) best
      = if (loss t : EReal) < best then mixtureLoopAux loss (t + 1) fuel (loss t)
        else t := rfl

/-- After one improving step, the mixture loop with best value `loss t` stops
exactly at the first later index whose loss does not improve on its
predecessor. -/
lemma mixtureLoopAux_stops (loss : ℕ → ℝ) :
    ∀ k t fuel : ℕ, k < fuel →
      (∀ s, s < k → loss (t + 1 + s) < loss (t + s)) →
      ¬ loss (t + 1 + k) < loss (t + k) →
      mixtureLoopAux loss (t + 1) fuel (loss t) = t + 1 + k := by
  intro k
  induction k with
  | zero =>
      intro t fuel hf hdec hstop
      obtain ⟨f, rfl⟩ : ∃ f, fuel = f + 1 := ⟨fuel - 1, by omega⟩
      have hc : ¬ ((loss (t + 1) : EReal) < (loss t : EReal)) := by
        rw [EReal.coe_lt_coe_iff]
        simpa using hstop
      rw [mixAux_succ, if_neg hc]
  | succ k ih =>
      intro t fuel hf hdec hstop
      obtain ⟨f, rfl⟩ : ∃ f, fuel = f + 1 := ⟨fuel - 1, by omega⟩
      have hc : ((loss (t + 1) : EReal) < (loss t : EReal)) := by
        rw [EReal.coe_lt_coe_iff]
        simpa using hdec 0 (by omega)
      have hdec2 : ∀ s, s < k → loss (t + 1 + 1 + s) < loss (t + 1 + s) := by
        intro s hs
        have h2 := hdec (s + 1) (by omega)
        have e1 : t + 1 + (s + 1) = t + 1 + 1 + s := by omega
        have e2 : t + (s + 1) = t + 1 + s := by omega
        rwa [e1, e2] at h2
      have hstop2 : ¬ loss (t + 1 + 1 + k) < loss (t + 1 + k) := by
        have e1 : t + 1 + (k + 1) = t + 1 + 1 + k := by omega
        have e2 : t + (k + 1) = t + 1 + k := by omega
        rw [e1, e2] at hstop
        exact hstop
      have h1 := ih (t + 1) f (by omega) hdec2 hstop2
      rw [mixAux_succ, if_pos hc, h1]
      omega

/-- If every iteration improves, the mixture loop consumes all its fuel. -/
lemma mixtureLoopAux_runs (loss : ℕ → ℝ) :
    ∀ fuel t : ℕ,
      (∀ s, s < fuel → loss (t + 1 + s) < loss (t + s)) →
      mixtureLoopAux loss (t + 1) fuel (loss t) = t + 1 + fuel := by
  intro fuel
  induction fuel with
  | zero => intro t _; rfl
  | succ f ih =>
      intro t hdec
      have hc : ((loss (t + 1) : EReal) < (loss t : EReal)) := by
        rw [EReal.coe_lt_coe_iff]
        simpa using hdec 0 (by omega)
      have hdec2 : ∀ s, s < f → loss (t + 1 + 1 + s) < loss (t + 1 + s) := by
        intro s hs
        have h2 := hdec (s + 1) (by omega)
        have e1 : t + 1 + (s + 1) = t + 1 + 1 + s := by omega
        have e2 : t + (s + 1) = t + 1 + s := by omega
        rwa [e1, e2] at h2
      have h1 := ih (t + 1) hdec2
      rw [mixAux_succ, if_pos hc, h1]
      omega

/-- C7 counterexample: on a loss stream that never improves after the first
evaluation, the single-Gaussian loop still performs all 2000 iterations,
whereas the claimed best-so-far policy (as the mixture loop implements it)
stops after one iteration: the policy does not hold for both loops. -/
theorem single_loop_ignores_convergence :
    singleLoopIters (fun _ => (5 : ℝ)) = 2000 ∧
      mixtureLoopIters (fun _ => (5 : ℝ)) 2000 = 1 ∧ (2000 : ℕ) ≠ 1 := by
  refine ⟨?_, ?_, by decide⟩
  · unfold singleLoopIters
    rw [singleLoopAux_eq]
  · unfold mixtureLoopIters
    rw [show (2000 : ℕ) = 1999 + 1 by norm_num, mixAux_succ,
      if_pos (EReal.coe_lt_top _)]
    rw [show (1999 : ℕ) = 1998 + 1 by norm_num, mixAux_succ, if_neg (by simp)]

/-- C7 (amended): the mixture loop tracks the best (lowest) loss seen so far
and terminates at the first iteration whose loss is not strictly lower than
its predecessor (the best-so-far after a strictly improving run), otherwise
running to its iteration cap; the single-Gaussian loop has no convergence
check and always performs its full 2000 iterations. -/
theorem loop_stopping_policies (loss : ℕ → ℝ) (cap t : ℕ) :
    singleLoopIters loss = 2000 ∧
      (t + 1 < cap → (∀ s, s < t → loss (s + 1) < loss s) →
        ¬ loss (t + 1) < loss t → mixtureLoopIters loss cap = t + 1) ∧
      ((∀ s, s + 1 < cap → loss (s + 1) < loss s) →
        mixtureLoopIters loss cap = cap) := by
  refine ⟨?_, ?_, ?_⟩
  · unfold singleLoopIters
    rw [singleLoopAux_eq]
  · intro hcap hdec hstop
    obtain ⟨c, rfl⟩ : ∃ c, cap = c + 1 := ⟨cap - 1, by omega⟩
    unfold mixtureLoopIters
    rw [mixAux_succ, if_pos (EReal.coe_lt_top (loss 0))]
    have hdec2 : ∀ s, s < t → loss (0 + 1 + s) < loss (0 + s) := by
      intro s hs
      have e1 : 0 + 1 + s = s + 1 := by omega
      have e2 : 0 + s = s := by omega
      rw [e1, e2]
      exact hdec s hs
    have hstop2 : ¬ loss (0 + 1 + t) < loss (0 + t) := by
      have e1 : 0 + 1 + t = t + 1 := by omega
      have e2 : 0 + t = t := by omega
      rw [e1, e2]
      exact hstop
    have h1 := mixtureLoopAux_stops loss t 0 c (by omega) hdec2 hstop2
    rw [h1]
    omega
  · intro hdec
    cases cap with
    | zero => rfl
    | succ c =>
        unfold mixtureLoopIters
        rw [mixAux_succ, if_pos (EReal.coe_lt_top (loss 0))]
        have hdec2 : ∀ s, s < c → loss (0 + 1 + s) < loss (0 + s) := by
          intro s hs
          have e1 : 0 + 1 + s = s + 1 := by omega
          have e2 : 0 + s = s := by omega
          rw [e1, e2]
          exact hdec s (by omega)
        have h1 := mixtureLoopAux_runs loss c 0 hdec2
        rw [h1]
        omega

/-- Witness for the amended C7 on the concrete stream `lossW = 0, -1, 0, …`:
the first non-improving iteration is `t + 1 = 2`, and the mixture loop indeed
performs exactly 2 iterations out of the cap 5000. -/
theorem loop_stopping_policies_witness :
    (1 + 1 < 5000 ∧ (∀ s, s < 1 → lossW (s + 1) < lossW s) ∧
        ¬ lossW (1 + 1) < lossW 1) ∧
      mixtureLoopIters lossW 5000 = 1 + 1 := by
  have ha : 1 + 1 < 5000 := by norm_num
  have hb : ∀ s, s < 1 → lossW (s + 1) < lossW s := by
    intro s hs
    interval_cases s
    norm_num [lossW]
  have hc : ¬ lossW (1 + 1) < lossW 1 := by norm_num [lossW]
  exact ⟨⟨ha, hb, hc⟩, (loop_stopping_policies lossW 5000 1).2.1 ha hb hc⟩

end GMM
